import Mathlib

/-!
Shallow embedding of the CMA-ES transformation policies of ensmallen:

* `BoundaryBoxConstraint` (boundary_box_constraint.hpp): the elementwise
  boundary-box transformation `Transform`, its helper quantities
  (`diff`, `al`, `au`, `xlow`, `xup`, `r`), and `initialStepSize`.
* `EmptyTransformation` (empty_transformation.hpp): the identity policy.

Matrix elements (C++ `double`) are modelled as `ℚ` with exact arithmetic;
division is the total division of `ℚ` (`q / 0 = 0`).  The C-level fact
"this execution reaches a division whose denominator is zero" is tracked
separately by the executable predicate `divFreeElem`, which mirrors the
branch structure of `Transform` and records, for every division performed
on a taken branch, that its denominator is nonzero.  The C cast
`(int)` applied to a `double` truncates toward zero and is modelled by
`cTrunc`.  `size_t` subtraction wraps modulo `2^64` and is modelled by
`sizeSub1`.
-/

/-- Truncation toward zero of a rational, the semantics of the C cast
`(int)` applied to a floating-point value. -/
def cTrunc (q : ℚ) : ℤ :=
  if 0 ≤ q then ⌊q⌋ else -⌊-q⌋

/-- A dense real matrix (`arma::mat`): a number of rows, a number of
columns, and an entry function.  Entries outside the `rows × cols` range
are irrelevant (never touched by the embedded loops). -/
structure QMat where
  rows : ℕ
  cols : ℕ
  entry : ℕ → ℕ → ℚ

/-- `size_t` subtraction of one, wrapping modulo `2^64`:
`n - 1` as computed on a 64-bit unsigned integer holding `n`. -/
def sizeSub1 (n : ℕ) : ℕ := (n + 2 ^ 64 - 1) % 2 ^ 64

/-- The clamped bound index of the source,
`Bi = (i < lowerBound.n_rows) ? i : (lowerBound.n_rows - 1)`,
with `size_t` semantics for the subtraction. -/
def clampIdx64 (n i : ℕ) : ℕ := if i < n then i else sizeSub1 n

namespace BoundaryBoxConstraint

/-- `diff = (upperBound(Bi, Bj) - lowerBound(Bi, Bj)) / 2.0`. -/
def diffOf (lb ub : ℚ) : ℚ := (ub - lb) / 2

/-- `al = std::min(diff, (1 + std::abs(lowerBound(Bi, Bj))) / 20.0)`. -/
def alOf (lb ub : ℚ) : ℚ := min (diffOf lb ub) ((1 + |lb|) / 20)

/-- `au = std::min(diff, (1 + std::abs(upperBound(Bi, Bj))) / 20.0)`. -/
def auOf (lb ub : ℚ) : ℚ := min (diffOf lb ub) ((1 + |ub|) / 20)

/-- `xlow = lowerBound(Bi, Bj) - 2 * al - diff`. -/
def xlowOf (lb ub : ℚ) : ℚ := lb - 2 * alOf lb ub - diffOf lb ub

/-- `xup = upperBound(Bi, Bj) + 2 * au + diff`. -/
def xupOf (lb ub : ℚ) : ℚ := ub + 2 * auOf lb ub + diffOf lb ub

/-- `r = 2 * (2 * diff + al + au)`. -/
def rOf (lb ub : ℚ) : ℚ :=
  2 * (2 * diffOf lb ub + alOf lb ub + auOf lb ub)

/-- First shift of the source:
`if (y < xlow) y += r * (1 + (int)(xlow - y) / r);`.
The C cast binds to `(xlow - y)` alone, so the truncated difference
(not the truncated quotient) is divided by `r`. -/
def shiftLow (lb ub y : ℚ) : ℚ :=
  if y < xlowOf lb ub then
    y + rOf lb ub * (1 + (cTrunc (xlowOf lb ub - y) : ℚ) / rOf lb ub)
  else y

/-- Second shift of the source:
`if (y > xup) y -= r * (1 + (int)(y - xup) / r);`. -/
def shiftHigh (lb ub y : ℚ) : ℚ :=
  if y > xupOf lb ub then
    y - rOf lb ub * (1 + (cTrunc (y - xupOf lb ub) : ℚ) / rOf lb ub)
  else y

/-- The two sequential shift statements ("Shift y into feasible
pre-image"). -/
def shiftStep (lb ub y : ℚ) : ℚ := shiftHigh lb ub (shiftLow lb ub y)

/-- `if (y < lowerBound - al) y += 2 * (lowerBound - al - y);`. -/
def reflectLow (lb ub y : ℚ) : ℚ :=
  if y < lb - alOf lb ub then y + 2 * (lb - alOf lb ub - y) else y

/-- `if (y > upperBound + au) y -= 2 * (y - upperBound - au);`. -/
def reflectHigh (lb ub y : ℚ) : ℚ :=
  if y > ub + auOf lb ub then y - 2 * (y - ub - auOf lb ub) else y

/-- The two sequential reflection statements. -/
def reflectStep (lb ub y : ℚ) : ℚ := reflectHigh lb ub (reflectLow lb ub y)

/-- Lower quadratic-smoothing expression of the source:
`lowerBound + (y - (lowerBound - al))^2 / 4.0 / al`. -/
def quadLow (lb ub y : ℚ) : ℚ :=
  lb + (y - (lb - alOf lb ub)) * (y - (lb - alOf lb ub)) / 4 / alOf lb ub

/-- Upper quadratic-smoothing expression of the source:
`upperBound - (y - (upperBound + au))^2 / 4.0 / au`. -/
def quadHigh (lb ub y : ℚ) : ℚ :=
  ub - (y - (ub + auOf lb ub)) * (y - (ub + auOf lb ub)) / 4 / auOf lb ub

/-- The final `if / else if` ("Boundary transformation"). -/
def boundaryQuad (lb ub y : ℚ) : ℚ :=
  if y < lb + alOf lb ub then quadLow lb ub y
  else if y > ub - auOf lb ub then quadHigh lb ub y
  else y

/-- The whole per-element body of `BoundaryBoxConstraint::Transform`:
shift, then reflect, then the boundary transformation, exactly in the
source's statement order. -/
def transformElem (lb ub y : ℚ) : ℚ :=
  boundaryQuad lb ub (reflectStep lb ub (shiftStep lb ub y))

/-- `true` iff no division reached while executing `transformElem`
(the divisions by `r` on the two shift branches and by `al` / `au` on the
two quadratic branches) has a zero denominator.  Divisions by the
constants `2`, `20` and `4` can never have a zero denominator. -/
def divFreeElem (lb ub y : ℚ) : Bool :=
  let y1 := shiftLow lb ub y
  let y4 := reflectStep lb ub (shiftStep lb ub y)
  (!decide (y < xlowOf lb ub) || decide (rOf lb ub ≠ 0)) &&
  (!decide (y1 > xupOf lb ub) || decide (rOf lb ub ≠ 0)) &&
  (!decide (y4 < lb + alOf lb ub) || decide (alOf lb ub ≠ 0)) &&
  (decide (y4 < lb + alOf lb ub) || !decide (y4 > ub - auOf lb ub) ||
    decide (auOf lb ub ≠ 0))

/-- `BoundaryBoxConstraint::Transform`: the double loop over the entries
of `x`, each entry transformed by `transformElem` with the bound entry at
the clamped indices `Bi`, `Bj` (computed from `lowerBound`'s dimensions,
with `size_t` semantics, and used to index both bound matrices). -/
def Transform (lb ub x : QMat) : QMat :=
  ⟨x.rows, x.cols, fun i j =>
    if i < x.rows ∧ j < x.cols then
      transformElem
        (lb.entry (clampIdx64 lb.rows i) (clampIdx64 lb.cols j))
        (ub.entry (clampIdx64 lb.rows i) (clampIdx64 lb.cols j))
        (x.entry i j)
    else x.entry i j⟩

/-- Minimum of a vector, as `arma::min` on a nonempty vector
(the value on an empty vector is irrelevant; Armadillo errors there). -/
def vecMin : List ℚ → ℚ
  | [] => 0
  | a :: as => as.foldl min a

/-- Elementwise difference of two matrices stored as lists of columns
(Armadillo is column-major), `upperBound - lowerBound`. -/
def matSub (a b : List (List ℚ)) : List (List ℚ) :=
  List.zipWith (List.zipWith (fun p q => p - q)) a b

/-- `BoundaryBoxConstraint::initialStepSize`:
`0.3 * arma::min(arma::min(upperBound - lowerBound))`.
The inner `arma::min` of a matrix is the row vector of per-column
minima; the outer `arma::min` takes the minimum of that vector. -/
def initialStepSize (lb ub : List (List ℚ)) : ℚ :=
  3 / 10 * vecMin ((matSub ub lb).map vecMin)

end BoundaryBoxConstraint

namespace EmptyTransformation

/-- `EmptyTransformation::Transform`: `return x;`. -/
def Transform (x : QMat) : QMat := x

/-- `EmptyTransformation::initialStepSize`: `return 1;`. -/
def initialStepSize : ℚ := 1

end EmptyTransformation

open BoundaryBoxConstraint

/-- C1: refuted on the code.  With the non-empty scalar bounds
`lowerBound = 0`, `upperBound = 1/100` and input matrix `[[-201/200]]`,
`Transform` returns `1058/25 = 42.32`, far outside `[0, 1/100]`:
the output of `Transform` does NOT always lie within
`[lowerBound, upperBound]`.  (Cause: the C cast in the shift step binds
to the difference, not the quotient, so for period `r < 1` the shift can
leave the working value below `xlow`, and the later steps then overshoot.) -/
theorem transform_escapes_box_at_narrow_bounds :
    (Transform ⟨1, 1, fun _ _ => 0⟩ ⟨1, 1, fun _ _ => 1 / 100⟩
        ⟨1, 1, fun _ _ => -201 / 200⟩).entry 0 0 = 1058 / 25 ∧
    ¬ (Transform ⟨1, 1, fun _ _ => 0⟩ ⟨1, 1, fun _ _ => 1 / 100⟩
        ⟨1, 1, fun _ _ => -201 / 200⟩).entry 0 0 ≤ 1 / 100 := by
  have h : (Transform ⟨1, 1, fun _ _ => 0⟩ ⟨1, 1, fun _ _ => 1 / 100⟩
      ⟨1, 1, fun _ _ => -201 / 200⟩).entry 0 0 =
      transformElem 0 (1 / 100) (-201 / 200) := by
    simp [Transform, clampIdx64]
  rw [h]
  have hd : diffOf 0 (1 / 100) = 1 / 200 := by norm_num [diffOf]
  have hal : alOf 0 (1 / 100) = 1 / 200 := by
    simp only [alOf]; rw [hd]; norm_num [min_def]
  have habs : |(1 / 100 : ℚ)| = 1 / 100 := abs_of_nonneg (by norm_num)
  have hau : auOf 0 (1 / 100) = 1 / 200 := by
    simp only [auOf]; rw [hd, habs]; norm_num [min_def]
  have hxl : xlowOf 0 (1 / 100) = -3 / 200 := by
    simp only [xlowOf]; rw [hal, hd]; norm_num
  have hxu : xupOf 0 (1 / 100) = 1 / 40 := by
    simp only [xupOf]; rw [hau, hd]; norm_num
  have hr : rOf 0 (1 / 100) = 1 / 25 := by
    simp only [rOf]; rw [hd, hal, hau]; norm_num
  have hct : cTrunc (-3 / 200 - -201 / 200) = 0 := by
    simp only [cTrunc]
    rw [if_pos (by norm_num)]
    norm_num
  have hs1 : shiftLow 0 (1 / 100) (-201 / 200) = -193 / 200 := by
    simp only [shiftLow]
    rw [hxl, hr, if_pos (by norm_num), hct]
    norm_num
  have hs2 : shiftHigh 0 (1 / 100) (-193 / 200) = -193 / 200 := by
    simp only [shiftHigh]
    rw [hxu, if_neg (by norm_num)]
  have hsh : shiftStep 0 (1 / 100) (-201 / 200) = -193 / 200 := by
    simp only [shiftStep]; rw [hs1, hs2]
  have hr1 : reflectLow 0 (1 / 100) (-193 / 200) = 191 / 200 := by
    simp only [reflectLow]
    rw [hal, if_pos (by norm_num)]
    norm_num
  have hr2 : reflectHigh 0 (1 / 100) (191 / 200) = -37 / 40 := by
    simp only [reflectHigh]
    rw [hau, if_pos (by norm_num)]
    norm_num
  have hrf : reflectStep 0 (1 / 100) (-193 / 200) = -37 / 40 := by
    simp only [reflectStep]; rw [hr1, hr2]
  have hq : boundaryQuad 0 (1 / 100) (-37 / 40) = 1058 / 25 := by
    simp only [boundaryQuad, quadLow]
    rw [hal, if_pos (by norm_num)]
    norm_num
  have hfin : transformElem 0 (1 / 100) (-201 / 200) = 1058 / 25 := by
    simp only [transformElem]; rw [hsh, hrf, hq]
  rw [hfin]
  norm_num

/-- C2: refuted on the code.  With degenerate bounds
`lowerBound = upperBound = 0` and input `-1`, the element transformation
reaches divisions whose denominator is zero (`r = 0` on the taken shift
branch and `al = 0` on the taken quadratic branch): the code does NOT
guard them.  Nor does it act as the identity on that dimension: even
under total-division semantics (`q / 0 = 0`) the result is `0`, not the
input `-1` (in IEEE doubles the result is NaN). -/
theorem degenerate_bounds_reach_division_by_zero :
    divFreeElem 0 0 (-1) = false ∧
    transformElem 0 0 (-1) = 0 ∧ transformElem 0 0 (-1) ≠ -1 := by
  have hd : diffOf 0 0 = 0 := by norm_num [diffOf]
  have hal : alOf 0 0 = 0 := by simp only [alOf]; rw [hd]; norm_num [min_def]
  have hau : auOf 0 0 = 0 := by simp only [auOf]; rw [hd]; norm_num [min_def]
  have hxl : xlowOf 0 0 = 0 := by simp only [xlowOf]; rw [hal, hd]; norm_num
  have hxu : xupOf 0 0 = 0 := by simp only [xupOf]; rw [hau, hd]; norm_num
  have hr : rOf 0 0 = 0 := by simp only [rOf]; rw [hd, hal, hau]; norm_num
  have hs1 : shiftLow 0 0 (-1) = -1 := by
    simp only [shiftLow]
    rw [hxl, hr, if_pos (by norm_num)]
    norm_num
  have hs2 : shiftHigh 0 0 (-1) = -1 := by
    simp only [shiftHigh]
    rw [hxu, if_neg (by norm_num)]
  have hsh : shiftStep 0 0 (-1) = -1 := by
    simp only [shiftStep]; rw [hs1, hs2]
  have hr1 : reflectLow 0 0 (-1) = 1 := by
    simp only [reflectLow]
    rw [hal, if_pos (by norm_num)]
    norm_num
  have hr2 : reflectHigh 0 0 1 = -1 := by
    simp only [reflectHigh]
    rw [hau, if_pos (by norm_num)]
    norm_num
  have hrf : reflectStep 0 0 (-1) = -1 := by
    simp only [reflectStep]; rw [hr1, hr2]
  have hq : boundaryQuad 0 0 (-1) = 0 := by
    simp only [boundaryQuad, quadLow]
    rw [hal, if_pos (by norm_num)]
    norm_num
  have hfin : transformElem 0 0 (-1) = 0 := by
    simp only [transformElem]; rw [hsh, hrf, hq]
  refine ⟨?_, hfin, by rw [hfin]; norm_num⟩
  simp only [divFreeElem]
  rw [hxl, hr]
  rw [decide_eq_true (show (-1 : ℚ) < 0 by norm_num)]
  rw [decide_eq_false (show ¬ ((0 : ℚ) ≠ 0) by norm_num)]
  simp

/-- C3: refuted on the code.  With bounds `lowerBound = 0`,
`upperBound = 1/10` (so `xlow = -3/20`, `xup = 1/4`, `r = 2/5`) and
input `-13/20`, a single application of the periodic shift step leaves
the working value at `-1/4`, still strictly below `xlow`: the shift does
NOT always bring the value into the pre-image interval `[xlow, xup]`.
(The C cast truncates `xlow - y` instead of `(xlow - y) / r`, so the
shift adds `r * (1 + trunc(xlow-y)/r) = r + trunc(xlow-y)`, which for
`r < 1` can fall short of the needed multiple of `r`.) -/
theorem shift_step_misses_preimage_interval :
    shiftStep 0 (1 / 10) (-13 / 20) = -1 / 4 ∧
    shiftStep 0 (1 / 10) (-13 / 20) < xlowOf 0 (1 / 10) := by
  have hd : diffOf 0 (1 / 10) = 1 / 20 := by norm_num [diffOf]
  have hal : alOf 0 (1 / 10) = 1 / 20 := by
    simp only [alOf]; rw [hd]; norm_num [min_def]
  have habs : |(1 / 10 : ℚ)| = 1 / 10 := abs_of_nonneg (by norm_num)
  have hau : auOf 0 (1 / 10) = 1 / 20 := by
    simp only [auOf]; rw [hd, habs]; norm_num [min_def]
  have hxl : xlowOf 0 (1 / 10) = -3 / 20 := by
    simp only [xlowOf]; rw [hal, hd]; norm_num
  have hxu : xupOf 0 (1 / 10) = 1 / 4 := by
    simp only [xupOf]; rw [hau, hd]; norm_num
  have hr : rOf 0 (1 / 10) = 2 / 5 := by
    simp only [rOf]; rw [hd, hal, hau]; norm_num
  have hct : cTrunc (-3 / 20 - -13 / 20) = 0 := by
    simp only [cTrunc]
    rw [if_pos (by norm_num)]
    norm_num
  have hs1 : shiftLow 0 (1 / 10) (-13 / 20) = -1 / 4 := by
    simp only [shiftLow]
    rw [hxl, hr, if_pos (by norm_num), hct]
    norm_num
  have hs2 : shiftHigh 0 (1 / 10) (-1 / 4) = -1 / 4 := by
    simp only [shiftHigh]
    rw [hxu, if_neg (by norm_num)]
  have hsh : shiftStep 0 (1 / 10) (-13 / 20) = -1 / 4 := by
    simp only [shiftStep]; rw [hs1, hs2]
  refine ⟨hsh, ?_⟩
  rw [hsh, hxl]
  norm_num

/-- C5: confirmed.  The quadratic-smoothing branch expressions agree
exactly with the identity at the band edges: `quadLow` evaluated at
`lower + al` equals `lower + al`, and `quadHigh` evaluated at
`upper - au` equals `upper - au` (whenever the margins are nonzero, so
the divisions in those expressions are well defined).  Hence the
per-element map has no jump at `lower + al` or `upper - au`. -/
theorem quad_branches_agree_with_identity_at_band_edges (lb ub : ℚ)
    (hal : alOf lb ub ≠ 0) (hau : auOf lb ub ≠ 0) :
    quadLow lb ub (lb + alOf lb ub) = lb + alOf lb ub ∧
    quadHigh lb ub (ub - auOf lb ub) = ub - auOf lb ub := by
  constructor
  · simp only [quadLow]
    field_simp
    ring
  · simp only [quadHigh]
    field_simp
    ring

/-- Witness for C5 at the concrete instance `lowerBound = 0`,
`upperBound = 2` (where `al = 1/20` and `au = 3/20`). -/
theorem quad_branches_agree_witness :
    alOf 0 2 ≠ 0 ∧ auOf 0 2 ≠ 0 ∧
    quadLow 0 2 (0 + alOf 0 2) = 0 + alOf 0 2 := by
  have h1 : alOf 0 2 = 1 / 20 := by
    norm_num [alOf, diffOf, min_def]
  have h2 : auOf 0 2 = 3 / 20 := by
    have habs : |(2 : ℚ)| = 2 := abs_of_nonneg (by norm_num)
    simp only [auOf, diffOf]
    rw [habs]
    norm_num [min_def]
  refine ⟨by rw [h1]; norm_num, by rw [h2]; norm_num,
    (quad_branches_agree_with_identity_at_band_edges 0 2
      (by rw [h1]; norm_num) (by rw [h2]; norm_num)).1⟩

/-- C8: confirmed.  The identity transformation policy
(`EmptyTransformation`) returns every input matrix unchanged and its
initial step size is `1`. -/
theorem empty_transformation_contract (x : QMat) :
    EmptyTransformation.Transform x = x ∧
    EmptyTransformation.initialStepSize = 1 :=
  ⟨rfl, rfl⟩

/-- C9: confirmed.  Under the precondition that `lowerBound` is
non-empty (with `size_t`-representable dimensions) and `upperBound` is
at least as large, the clamped indices `Bi = clampIdx64 lb.n_rows i`,
`Bj = clampIdx64 lb.n_cols j` — computed from `lowerBound`'s dimensions
only — are in bounds for BOTH bound matrices, for every loop index.
Without the precondition (a default-constructed policy, `n_rows = 0`),
the `size_t` computation `lowerBound.n_rows - 1` underflows to
`2^64 - 1`, which is out of bounds for the empty bound matrix
(no index is below `0` rows), so `Transform` on a non-empty input
reads out of bounds. -/
theorem transform_bound_index_safety (lbR lbC ubR ubC i j : ℕ)
    (h1 : 0 < lbR) (h2 : 0 < lbC) (h3 : lbR ≤ ubR) (h4 : lbC ≤ ubC) :
    (clampIdx64 lbR i < lbR ∧ clampIdx64 lbR i < ubR ∧
     clampIdx64 lbC j < lbC ∧ clampIdx64 lbC j < ubC) ∧
    (clampIdx64 0 i = 2 ^ 64 - 1 ∧ ¬ clampIdx64 0 i < 0) := by
  unfold clampIdx64 sizeSub1
  constructor
  · refine ⟨?_, ?_, ?_, ?_⟩ <;> (split_ifs <;> omega)
  · constructor
    · rw [if_neg (by omega)]
      omega
    · omega

/-- Witness for C9 at `lowerBound` of size `1 × 1`, `upperBound` of
size `2 × 3`, loop indices `(5, 0)`. -/
theorem transform_bound_index_safety_witness :
    (0 < 1 ∧ 0 < 1 ∧ 1 ≤ 2 ∧ 1 ≤ 3) ∧
    ((clampIdx64 1 5 < 1 ∧ clampIdx64 1 5 < 2 ∧
      clampIdx64 1 0 < 1 ∧ clampIdx64 1 0 < 3) ∧
     (clampIdx64 0 5 = 2 ^ 64 - 1 ∧ ¬ clampIdx64 0 5 < 0)) :=
  ⟨⟨by decide, by decide, by decide, by decide⟩,
    transform_bound_index_safety 1 1 2 3 5 0
      (by decide) (by decide) (by decide) (by decide)⟩

/-- C4: confirmed.  For non-degenerate bounds (`lower < upper`), every
element already inside the interior band `[lower + al, upper - au]` is
mapped to itself by the per-element body of `Transform`: no shift, no
reflection and no quadratic branch fires there. -/
theorem transform_identity_on_interior_band (lb ub x : ℚ) (hlu : lb < ub)
    (h1 : lb + alOf lb ub ≤ x) (h2 : x ≤ ub - auOf lb ub) :
    transformElem lb ub x = x := by
  have hd : 0 < diffOf lb ub := by simp only [diffOf]; linarith
  have hal : 0 < alOf lb ub := lt_min hd (by positivity)
  have hau : 0 < auOf lb ub := lt_min hd (by positivity)
  have hxlow : ¬ (x < xlowOf lb ub) := by
    simp only [xlowOf]; push_neg; linarith
  have hxup : ¬ (x > xupOf lb ub) := by
    simp only [xupOf]; push_neg; linarith
  have hrl : ¬ (x < lb - alOf lb ub) := by push_neg; linarith
  have hrh : ¬ (x > ub + auOf lb ub) := by push_neg; linarith
  have hq1 : ¬ (x < lb + alOf lb ub) := not_lt.mpr h1
  have hq2 : ¬ (x > ub - auOf lb ub) := not_lt.mpr h2
  simp only [transformElem, shiftStep, shiftLow, shiftHigh, reflectStep,
    reflectLow, reflectHigh, boundaryQuad]
  rw [if_neg hxlow, if_neg hxup, if_neg hrl, if_neg hrh, if_neg hq1,
    if_neg hq2]

/-- Witness for C4 at `lowerBound = 0`, `upperBound = 2`, element `1`
(the band there is `[1/20, 37/20]`). -/
theorem transform_identity_on_interior_band_witness :
    ((0 : ℚ) < 2 ∧ 0 + alOf 0 2 ≤ 1 ∧ (1 : ℚ) ≤ 2 - auOf 0 2) ∧
    transformElem 0 2 1 = 1 := by
  have h1 : alOf 0 2 = 1 / 20 := by norm_num [alOf, diffOf, min_def]
  have h2 : auOf 0 2 = 3 / 20 := by
    have habs : |(2 : ℚ)| = 2 := abs_of_nonneg (by norm_num)
    simp only [auOf, diffOf]
    rw [habs]
    norm_num [min_def]
  exact ⟨⟨by norm_num, by rw [h1]; norm_num, by rw [h2]; norm_num⟩,
    transform_identity_on_interior_band 0 2 1 (by norm_num)
      (by rw [h1]; norm_num) (by rw [h2]; norm_num)⟩

/-- C6: confirmed.  When the (non-empty, `size_t`-sized) bound matrices
are shorter than the coordinate matrix, `Transform` reads the bound for
entry `(i, j)` at position `(min i (n_rows - 1), min j (n_cols - 1))`
of each bound matrix: dimensions beyond the bound matrix's extent reuse
its last valid entry.  The scalar constructor stores a `1 × 1` bound,
so every dimension then uses that single entry. -/
theorem transform_broadcasts_last_bound_entry (lb ub x : QMat) (i j : ℕ)
    (hr : 0 < lb.rows) (hc : 0 < lb.cols)
    (hr64 : lb.rows < 2 ^ 64) (hc64 : lb.cols < 2 ^ 64)
    (hi : i < x.rows) (hj : j < x.cols) :
    (Transform lb ub x).entry i j =
      transformElem (lb.entry (min i (lb.rows - 1)) (min j (lb.cols - 1)))
        (ub.entry (min i (lb.rows - 1)) (min j (lb.cols - 1)))
        (x.entry i j) := by
  have hmin : ∀ n k : ℕ, 0 < n → n < 2 ^ 64 → clampIdx64 n k = min k (n - 1) := by
    intro n k hn hn64
    unfold clampIdx64 sizeSub1
    split_ifs <;> omega
  dsimp only [Transform]
  rw [if_pos ⟨hi, hj⟩, hmin _ _ hr hr64, hmin _ _ hc hc64]

/-- Witness for C6: a `1 × 1` bound pair `(0, 2)` (as built by the
scalar constructor) against a `1 × 2` coordinate matrix constantly `5`,
at entry `(0, 1)`: the single bound entry is reused. -/
theorem transform_broadcasts_last_bound_entry_witness :
    (0 < 1 ∧ (1 : ℕ) < 2 ^ 64 ∧ 0 < 1 ∧ (1 : ℕ) < 2) ∧
    (Transform ⟨1, 1, fun _ _ => 0⟩ ⟨1, 1, fun _ _ => 2⟩
        ⟨1, 2, fun _ _ => 5⟩).entry 0 1 = transformElem 0 2 5 := by
  refine ⟨⟨by decide, by decide, by decide, by decide⟩, ?_⟩
  simpa using transform_broadcasts_last_bound_entry
    ⟨1, 1, fun _ _ => 0⟩ ⟨1, 1, fun _ _ => 2⟩ ⟨1, 2, fun _ _ => 5⟩ 0 1
    (by decide) (by decide) (by decide) (by decide) (by decide) (by decide)

/-- Folding `min` over a nonempty list starting from `c` gives
`min c (vecMin l)`. -/
theorem foldl_min_eq (l : List ℚ) :
    l ≠ [] → ∀ c : ℚ, l.foldl min c = min c (vecMin l) := by
  induction l with
  | nil => intro h; exact absurd rfl h
  | cons a t ih =>
    intro _ c
    cases t with
    | nil => simp [vecMin]
    | cons b t2 =>
      have hne : b :: t2 ≠ [] := by simp
      calc (a :: b :: t2).foldl min c
          = (b :: t2).foldl min (min c a) := by rw [List.foldl_cons]
        _ = min (min c a) (vecMin (b :: t2)) := ih hne (min c a)
        _ = min c (min a (vecMin (b :: t2))) := by rw [min_assoc]
        _ = min c (vecMin (a :: b :: t2)) := by
            have hv : vecMin (a :: b :: t2) = min a (vecMin (b :: t2)) :=
              ih hne a
            rw [hv]

/-- `vecMin` of a concatenation of nonempty lists is the `min` of the
two minima. -/
theorem vecMin_append (a b : List ℚ) (ha : a ≠ []) (hb : b ≠ []) :
    vecMin (a ++ b) = min (vecMin a) (vecMin b) := by
  cases a with
  | nil => exact absurd rfl ha
  | cons x xs =>
    calc vecMin ((x :: xs) ++ b)
        = (xs ++ b).foldl min x := rfl
      _ = b.foldl min (xs.foldl min x) := by rw [List.foldl_append]
      _ = b.foldl min (vecMin (x :: xs)) := rfl
      _ = min (vecMin (x :: xs)) (vecMin b) := foldl_min_eq b hb _

/-- The concatenation of a nonempty list of nonempty lists is
nonempty. -/
theorem flatten_ne_nil (m : List (List ℚ)) (hm : m ≠ [])
    (hc : ∀ c ∈ m, c ≠ []) : m.flatten ≠ [] := by
  cases m with
  | nil => exact absurd rfl hm
  | cons c t =>
    have hcne : c ≠ [] := hc c (List.mem_cons_self c t)
    cases c with
    | nil => exact absurd rfl hcne
    | cons a as => simp

/-- The minimum of the per-column minima equals the minimum over all
entries (the flattened matrix), for a nonempty matrix with nonempty
columns. -/
theorem vecMin_map_vecMin_eq_vecMin_flatten (m : List (List ℚ)) :
    m ≠ [] → (∀ c ∈ m, c ≠ []) →
    vecMin (m.map vecMin) = vecMin m.flatten := by
  induction m with
  | nil => intro h; exact absurd rfl h
  | cons c t ih =>
    intro _ hc
    have hcne : c ≠ [] := hc c (List.mem_cons_self c t)
    cases t with
    | nil =>
      simp only [List.map_cons, List.map_nil, List.flatten]
      simp [vecMin]
    | cons c2 t2 =>
      have htne : c2 :: t2 ≠ [] := by simp
      have hct : ∀ d ∈ c2 :: t2, d ≠ [] := fun d hd =>
        hc d (List.mem_cons_of_mem c hd)
      have hjne : (c2 :: t2).flatten ≠ [] := flatten_ne_nil _ htne hct
      have hmapne : (c2 :: t2).map vecMin ≠ [] := by simp
      calc vecMin ((c :: c2 :: t2).map vecMin)
          = ((c2 :: t2).map vecMin).foldl min (vecMin c) := rfl
        _ = min (vecMin c) (vecMin ((c2 :: t2).map vecMin)) :=
            foldl_min_eq _ hmapne _
        _ = min (vecMin c) (vecMin (c2 :: t2).flatten) := by
            rw [ih htne hct]
        _ = vecMin (c ++ (c2 :: t2).flatten) :=
            (vecMin_append c _ hcne hjne).symm
        _ = vecMin (c :: c2 :: t2).flatten := by
            simp [List.flatten_cons]

/-- `vecMin` of a nonempty list is an element of the list. -/
theorem vecMin_mem (l : List ℚ) (hl : l ≠ []) : vecMin l ∈ l := by
  cases l with
  | nil => exact absurd rfl hl
  | cons a t =>
    have : ∀ (t2 : List ℚ) (c : ℚ), t2.foldl min c = c ∨
        t2.foldl min c ∈ t2 := by
      intro t2
      induction t2 with
      | nil => intro c; exact Or.inl rfl
      | cons b t3 ih =>
        intro c
        rcases ih (min c b) with h | h
        · rcases min_choice c b with hm | hm
          · exact Or.inl (by rw [List.foldl_cons, h, hm])
          · refine Or.inr ?_
            rw [List.foldl_cons, h, hm]
            exact List.mem_cons_self b t3
        · exact Or.inr (List.mem_cons_of_mem b (by rw [List.foldl_cons]; exact h))
    rcases this t a with h | h
    · rw [show vecMin (a :: t) = t.foldl min a from rfl, h]
      exact List.mem_cons_self a t
    · exact List.mem_cons_of_mem a h

/-- `vecMin` of a list is a lower bound for every element. -/
theorem vecMin_le (l : List ℚ) (q : ℚ) (hq : q ∈ l) : vecMin l ≤ q := by
  cases l with
  | nil => cases hq
  | cons a t =>
    have key : ∀ (t2 : List ℚ) (c : ℚ),
        t2.foldl min c ≤ c ∧ ∀ p ∈ t2, t2.foldl min c ≤ p := by
      intro t2
      induction t2 with
      | nil => intro c; exact ⟨le_refl c, by intro p hp; cases hp⟩
      | cons b t3 ih =>
        intro c
        have h1 := (ih (min c b)).1
        have h2 := (ih (min c b)).2
        constructor
        · rw [List.foldl_cons]
          exact le_trans h1 (min_le_left c b)
        · intro p hp
          rw [List.foldl_cons]
          rcases List.mem_cons.mp hp with rfl | hp
          · exact le_trans h1 (min_le_right c p)
          · exact h2 p hp
    rcases List.mem_cons.mp hq with rfl | hq
    · exact (key t q).1
    · exact (key t a).2 q hq

/-- C7: confirmed.  `initialStepSize` — literally `0.3` times the
min-of-column-minima of `upperBound - lowerBound` — equals `0.3` times
the minimum over ALL entries of `upperBound - lowerBound`: that value is
the least element of the flattened difference matrix (it belongs to it
and bounds every entry from below). -/
theorem initialStepSize_is_scaled_global_min (lb ub : List (List ℚ))
    (h1 : matSub ub lb ≠ []) (h2 : ∀ c ∈ matSub ub lb, c ≠ []) :
    initialStepSize lb ub = 3 / 10 * vecMin (matSub ub lb).flatten ∧
    vecMin (matSub ub lb).flatten ∈ (matSub ub lb).flatten ∧
    ∀ q ∈ (matSub ub lb).flatten, vecMin (matSub ub lb).flatten ≤ q := by
  refine ⟨?_, vecMin_mem _ (flatten_ne_nil _ h1 h2),
    fun q hq => vecMin_le _ q hq⟩
  simp only [initialStepSize]
  rw [vecMin_map_vecMin_eq_vecMin_flatten _ h1 h2]

/-- Witness for C7 with the scalar bounds `(0, 2)` stored as `1 × 1`
matrices. -/
theorem initialStepSize_is_scaled_global_min_witness :
    (matSub [[(2 : ℚ)]] [[0]] ≠ [] ∧
      ∀ c ∈ matSub [[(2 : ℚ)]] [[0]], c ≠ []) ∧
    initialStepSize [[0]] [[2]] =
      3 / 10 * vecMin (matSub [[(2 : ℚ)]] [[0]]).flatten := by
  have hA : matSub [[(2 : ℚ)]] [[0]] ≠ [] := by simp [matSub]
  have hB : ∀ c ∈ matSub [[(2 : ℚ)]] [[0]], c ≠ [] := by simp [matSub]
  exact ⟨⟨hA, hB⟩, (initialStepSize_is_scaled_global_min [[0]] [[2]] hA hB).1⟩
